import Mathlib

/-!
Verification development for the `HttpFT` feed-ingestion node
(`minemeld/ft/http.py`): a shallow embedding of its reconciliation
engine, polling lifecycle and RPC query surface, plus theorems about
the claims of the specification.

Python strings are embedded as `List Char`; Python dicts holding
indicator attributes as association lists; the external ordered store
(`minemeld.ft.table.Table`, not part of the sources) is modelled from
the specification's store contract (section 4.5): an ordered
key-to-record map with a secondary ordered index on the `_updated`
timestamp, whose range query returns entries ordered along that index.
Timestamps (`utc_millisec`) are embedded as an abstract clock
`Nat -> Int` of successive readings.
-/

set_option autoImplicit false

namespace HttpFT

/-! ## Python string primitives -/

/-- Embedding of a Python (byte-)string as a list of characters. -/
abbrev PyStr := List Char

/-- Python `str.strip()`: drop whitespace from both ends. -/
def pyStrip (s : PyStr) : PyStr :=
  ((s.dropWhile Char.isWhitespace).reverse.dropWhile Char.isWhitespace).reverse

/-- Python `str.split(sep)` for a single separator character: split at every
occurrence of `c`, keeping empty fragments (so `"".split(c) = [""]`). -/
def splitOnChar (c : Char) : PyStr → List PyStr
  | [] => [[]]
  | x :: xs =>
    if x = c then [] :: splitOnChar c xs
    else
      match splitOnChar c xs with
      | [] => [[x]]
      | t :: ts => (x :: t) :: ts

/-- Split at every whitespace character, keeping empty fragments. -/
def splitWsRaw : PyStr → List PyStr
  | [] => [[]]
  | x :: xs =>
    if x.isWhitespace then [] :: splitWsRaw xs
    else
      match splitWsRaw xs with
      | [] => [[x]]
      | t :: ts => (x :: t) :: ts

/-- Python `str.split()` with no argument: split on whitespace runs and drop
empty fragments (so `"".split() = []`). -/
def pySplitWs (s : PyStr) : List PyStr :=
  (splitWsRaw s).filter (fun t => t ≠ [])

/-- Python string comparison `a <= b`: lexicographic on character codes. -/
def strLE : PyStr → PyStr → Bool
  | [], _ => true
  | _ :: _, [] => false
  | a :: as, b :: bs =>
    if a.toNat = b.toNat then strLE as bs
    else decide (a.toNat < b.toNat)

/-! ## Attribute values and attribute maps -/

/-- Values stored in an indicator's attribute dictionary: integers
(millisecond timestamps), strings, and lists of strings (the `sources`
field). -/
inductive Value where
  | vInt (n : Int)
  | vStr (s : PyStr)
  | vStrs (l : List PyStr)
deriving DecidableEq, Repr

/-- Keys of an attribute map are Python strings. -/
abbrev Key := PyStr

/-- An attribute dictionary, embedded as an association list. -/
abbrev Attrs := List (Key × Value)

/-- Dictionary lookup: first binding of the key, if any. -/
def lookupA : Attrs → Key → Option Value
  | [], _ => none
  | (k, v) :: t, k' => if k = k' then some v else lookupA t k'

/-- Dictionary update `d[k] = v`: overwrite in place, append if absent. -/
def setA : Attrs → Key → Value → Attrs
  | [], k, v => [(k, v)]
  | (k0, v0) :: t, k, v =>
    if k0 = k then (k, v) :: t else (k0, v0) :: setA t k v

/-- Dictionary access `d[k]`. The records read by the engine always carry
the accessed key (they were written by the engine itself), so the Python
`KeyError` path is not modelled; an absent key yields a default. -/
def getA (a : Attrs) (k : Key) : Value :=
  (lookupA a k).getD (.vInt 0)

/-- The `sources` attribute key. -/
def kSources : Key := ['s', 'o', 'u', 'r', 'c', 'e', 's']

/-- The `_updated` attribute key (also the name of the store's
timestamp index). -/
def kUpdated : Key := ['_', 'u', 'p', 'd', 'a', 't', 'e', 'd']

/-- The `first_seen` attribute key. -/
def kFirstSeen : Key := ['f', 'i', 'r', 's', 't', '_', 's', 'e', 'e', 'n']

/-- The `last_seen` attribute key. -/
def kLastSeen : Key := ['l', 'a', 's', 't', '_', 's', 'e', 'e', 'n']

/-! ## The store

Modelled from the spec: the storage engine `minemeld.ft.table.Table` is
not among the sources; section 4.5 of the specification gives its
contract (`put` upsert, `get`, `delete` no-op if absent, a secondary
ordered index on `_updated` auto-maintained by put/delete, and `query`
returning an ordered sequence over a range on the named index, the
lower bound inclusive and the upper bound exclusive, absent bounds
unbounded). Section 4.1 describes the query order as "ascending
timestamp-index order"; ties between equal timestamps are broken by
key. -/

/-- The store: an association list from indicator keys to records. -/
abbrev Table := List (Key × Attrs)

/-- Store point lookup. -/
def tableGet : Table → Key → Option Attrs
  | [], _ => none
  | (k, v) :: t, k' => if k = k' then some v else tableGet t k'

/-- Store upsert. -/
def tablePut : Table → Key → Attrs → Table
  | [], k, v => [(k, v)]
  | (k0, v0) :: t, k, v =>
    if k0 = k then (k, v) :: t else (k0, v0) :: tablePut t k v

/-- Store delete (no-op if the key is absent). -/
def tableDelete : Table → Key → Table
  | [], _ => []
  | (k0, v0) :: t, k =>
    if k0 = k then tableDelete t k else (k0, v0) :: tableDelete t k

/-- Well-formedness of a store: keys are pairwise distinct. -/
def TableWF (t : Table) : Prop := (t.map Prod.fst).Nodup

/-- The `_updated` timestamp of a record (used by the secondary index). -/
def updOf (a : Attrs) : Int :=
  match lookupA a kUpdated with
  | some (.vInt n) => n
  | _ => 0

/-! ## The timestamp-index range query -/

/-- Lower bound of an index range: inclusive, absent means unbounded. -/
def fromOk (fromKey : Option Int) (u : Int) : Bool :=
  match fromKey with
  | none => true
  | some f => decide (f ≤ u)

/-- Upper bound of an index range: exclusive, absent means unbounded.
The specification describes the stale scan over `query(0, T - 1)` as
selecting entries with `_updated` strictly less than `T - 1`. -/
def toOk (toKey : Option Int) (u : Int) : Bool :=
  match toKey with
  | none => true
  | some t => decide (u < t)

/-- A record's membership in the queried timestamp range. -/
def inRangeB (fromKey toKey : Option Int) (u : Int) : Bool :=
  fromOk fromKey u && toOk toKey u

/-- Ordering of index entries: ascending `_updated` timestamp, ties
broken by ascending key. -/
def updKeyLEb (p q : Key × Attrs) : Bool :=
  decide (updOf p.2 < updOf q.2) ||
    (decide (updOf p.2 = updOf q.2) && strLE p.1 q.1)

/-- Insert an entry into a list sorted by `updKeyLEb`. -/
def insertSorted (x : Key × Attrs) : List (Key × Attrs) → List (Key × Attrs)
  | [] => [x]
  | y :: ys => if updKeyLEb x y then x :: y :: ys else y :: insertSorted x ys

/-- Sort index entries by ascending (`_updated`, key). -/
def sortByUpdKey (l : List (Key × Attrs)) : List (Key × Attrs) :=
  l.foldr insertSorted []

/-- The store's `query` on the `_updated` index: the entries whose
timestamp lies in the range, in ascending timestamp-index order. -/
def tableQuery (tbl : Table) (fromKey toKey : Option Int) : List (Key × Attrs) :=
  sortByUpdKey (tbl.filter (fun p => inRangeB fromKey toKey (updOf p.2)))

/-! ## Node configuration (`configure`) -/

/-- The configuration attributes read by `HttpFT.configure`. -/
structure Config where
  source_name : PyStr
  cchar : Option PyStr
  split_char : Option Char
  split_pos : Nat
  attributes : Attrs
  interval : Int
  force_updates : Bool
  num_retries : Nat

/-- The default `_values_compare(d1, d2)` hook: always reports equal. -/
def values_compare (_d1 _d2 : Attrs) : Bool := true

/-- The default `_process_line(line)` hook: the indicator is the first
whitespace-delimited token of the line (raising `IndexError` when the
whitespace split of the line is empty), the attributes a deep copy of
the configured static attribute map (the embedding's values are
immutable, so the copy is the identity). -/
def process_line (cfg : Config) (line : PyStr) : Except Unit (PyStr × Attrs) :=
  match pySplitWs line with
  | [] => .error ()
  | t :: _ => .ok (t, cfg.attributes)

/-- Line filtering in `_polling_loop`: strip the raw line; skip it when
empty; skip it when it starts with the configured comment prefix; when a
split character is configured, split, skip when there are too few
tokens, and select and strip the token at `split_pos`. -/
def filterLine (cfg : Config) (raw : PyStr) : Option PyStr :=
  let line := pyStrip raw
  if line = [] then none
  else if (match cfg.cchar with
           | some c => c.isPrefixOf line
           | none => false) then none
  else
    match cfg.split_char with
    | none => some line
    | some sc =>
      let toks := splitOnChar sc line
      if toks.length < cfg.split_pos + 1 then none
      else some (pyStrip (toks.getD cfg.split_pos []))

/-! ## The reconciliation engine (`_polling_loop`) -/

/-- Per-indicator reconciliation (lines 79-99 of `_polling_loop`), for
one `(indicator, attributes)` pair produced from a line.  `clock` is
the sequence of `utc_millisec()` readings and `i` the index of the next
reading.  Result: the store after the upsert, the emitted update event
(if not suppressed), and the next clock index. -/
def processIndicator (cfg : Config) (cmp : Attrs → Attrs → Bool)
    (clock : Nat → Int) (tbl : Table) (indicator : PyStr) (attrs0 : Attrs)
    (i : Nat) : Table × Option (Key × Attrs) × Nat :=
  let a1 := setA attrs0 kSources (.vStrs [cfg.source_name])
  let a2 := setA a1 kUpdated (.vInt (clock i))
  let ev := tableGet tbl indicator
  let fs : Value × Nat :=
    match ev with
    | some old => (getA old kFirstSeen, i + 1)
    | none => (.vInt (clock (i + 1)), i + 2)
  let a3 := setA a2 kFirstSeen fs.1
  let a4 := setA a3 kLastSeen (.vInt (clock fs.2))
  let send_update : Bool :=
    match ev with
    | some old => if !cfg.force_updates && cmp old a4 then false else true
    | none => true
  (tablePut tbl indicator a4,
   if send_update then some (indicator, a4) else none,
   fs.2 + 1)

/-- The record built by `processIndicator` when no prior record exists
for the indicator: `first_seen` and `last_seen` are fresh clock
readings. -/
def newAttrsNew (cfg : Config) (clock : Nat → Int) (attrs0 : Attrs)
    (i : Nat) : Attrs :=
  setA (setA (setA (setA attrs0 kSources (.vStrs [cfg.source_name]))
    kUpdated (.vInt (clock i))) kFirstSeen (.vInt (clock (i + 1))))
    kLastSeen (.vInt (clock (i + 2)))

/-- The record built by `processIndicator` when a prior record `old`
exists: `first_seen` is carried forward from `old`. -/
def newAttrsOld (cfg : Config) (clock : Nat → Int) (attrs0 old : Attrs)
    (i : Nat) : Attrs :=
  setA (setA (setA (setA attrs0 kSources (.vStrs [cfg.source_name]))
    kUpdated (.vInt (clock i))) kFirstSeen (getA old kFirstSeen))
    kLastSeen (.vInt (clock (i + 1)))

/-- Result of processing the fetched lines: the store after all
upserts, the update events emitted in order, the next clock index, and
whether a line raised (failing the whole cycle). -/
structure LinesResult where
  tbl : Table
  ups : List (Key × Attrs)
  next : Nat
  err : Bool
deriving DecidableEq

/-- The per-line loop of `_polling_loop` over the fetched lines.  A
line skipped by the filters leaves store and events untouched; a line
whose processing raises aborts the loop with the partial store (the
exception propagates out of the cycle). -/
def runLines (cfg : Config) (cmp : Attrs → Attrs → Bool)
    (clock : Nat → Int) : List PyStr → Table → Nat → LinesResult
  | [], tbl, i => ⟨tbl, [], i, false⟩
  | raw :: rest, tbl, i =>
    match filterLine cfg raw with
    | none => runLines cfg cmp clock rest tbl i
    | some line =>
      match process_line cfg line with
      | .error _ => ⟨tbl, [], i, true⟩
      | .ok (indicator, attrs0) =>
        let r := processIndicator cfg cmp clock tbl indicator attrs0 i
        let r2 := runLines cfg cmp clock rest r.1 r.2.2
        ⟨r2.tbl, r.2.1.toList ++ r2.ups, r2.next, r2.err⟩

/-- The withdraw payload `{sources: [source name]}`. -/
def withdrawValue (cfg : Config) : Attrs :=
  [(kSources, .vStrs [cfg.source_name])]

/-- The stale scan at the end of `_polling_loop` (lines 101-105): query
the `_updated` index over `[0, T - 1)`, delete every entry returned and
emit a withdraw with payload `{sources: [source name]}` for it, in
query order. -/
def staleScan (cfg : Config) (T : Int) (tbl : Table) :
    Table × List (Key × Attrs) :=
  let qs := tableQuery tbl (some 0) (some (T - 1))
  (qs.foldl (fun t p => tableDelete t p.1) tbl,
   qs.map (fun p => (p.1, withdrawValue cfg)))

/-- Result of one reconciliation cycle. -/
structure CycleResult where
  tbl : Table
  ups : List (Key × Attrs)
  withdraws : List (Key × Attrs)
  err : Bool
deriving DecidableEq

/-- One reconciliation cycle (`_polling_loop`): record the cycle-start
timestamp `now` (clock reading 0), process the fetched lines, then run
the stale scan.  A raising line fails the cycle before the scan. -/
def polling_loop (cfg : Config) (cmp : Attrs → Attrs → Bool)
    (clock : Nat → Int) (lines : List PyStr) (tbl : Table) : CycleResult :=
  let now := clock 0
  let lr := runLines cfg cmp clock lines tbl 1
  if lr.err then ⟨lr.tbl, lr.ups, [], true⟩
  else
    let sc := staleScan cfg now lr.tbl
    ⟨sc.1, lr.ups, sc.2, false⟩

/-! ## The scheduling loop (`_run`) -/

/-- Python's `random.randint(a, b)`: the drawn integer `n` satisfies
`a ≤ n ≤ b`, both endpoints included. -/
def randint (a b n : Int) : Prop := a ≤ n ∧ n ≤ b

instance (a b n : Int) : Decidable (randint a b n) :=
  inferInstanceAs (Decidable (And _ _))

/-- The overrun-adjustment loop of `_run` (lines 138-141): while the
remaining time `d` is negative, add one interval `I` (in milliseconds),
logging a warning each pass.  The fuel argument bounds the number of
passes; with `1 ≤ I` the fuel chosen by `adjustDelta` is never
exhausted (the loop terminates), as witnessed by the result being
non-negative. -/
def adjustGo (I : Int) : Nat → Int → Int
  | 0, d => d
  | n + 1, d => if d < 0 then adjustGo I n (d + I) else d

/-- The overrun-adjustment loop applied to the computed remaining time. -/
def adjustDelta (I d : Int) : Int :=
  adjustGo I ((-d).toNat + 1) d

/-- The outcome of one `_polling_loop` call as seen by `_run`. -/
inductive CycleOutcome where
  | success
  | failure
  | greenletExited
deriving DecidableEq

/-- What the body of `_run`'s while loop does next. -/
inductive LoopAction where
  /-- Leave the loop on `GreenletExit`. -/
  | exitLoop
  /-- Backoff: sleep the retry jitter and immediately retry the cycle,
  without computing the inter-cycle remaining time. -/
  | retrySleep (j : Int)
  /-- Normal scheduling: sleep the adjusted remaining time (in
  milliseconds) until the next cycle. -/
  | intervalSleep (d : Int)
deriving DecidableEq

/-- One iteration of `_run`'s while loop (lines 119-143), given the
retry counter `tryn` on entry, the cycle's outcome, the drawn retry
jitter, the cycle-start reading `lastrun` and the reading `now` taken
after the cycle.  Returns the retry counter for the next iteration and
the action taken. -/
def run_iteration (cfg : Config) (tryn : Nat) (outcome : CycleOutcome)
    (jitter lastrun now : Int) : Nat × LoopAction :=
  match outcome with
  | .greenletExited => (tryn, .exitLoop)
  | .failure =>
    let tryn1 := tryn + 1
    if tryn1 < cfg.num_retries then (tryn1, .retrySleep jitter)
    else (0, .intervalSleep
      (adjustDelta (cfg.interval * 1000) (lastrun + cfg.interval * 1000 - now)))
  | .success =>
    (0, .intervalSleep
      (adjustDelta (cfg.interval * 1000) (lastrun + cfg.interval * 1000 - now)))

/-! ## Node state and lifecycle (`__init__`, `start`, `stop`) -/

/-- Externally visible side effects of the lifecycle operations. -/
inductive Effect where
  /-- Spawn of the polling task, `gevent.spawn_later(delay, self._run)`. -/
  | spawnTask (delay : Int)
  /-- Kill of a tracked active outbound request, `g.kill()`. -/
  | killRequest (g : Nat)
  /-- Kill of the background task, `self.glet.kill()`. -/
  | killTask
deriving DecidableEq

/-- The mutable state of an `HttpFT` node: the store, the background
task handle `glet`, and the tracked active outbound requests. -/
structure NodeState where
  table : Table
  glet : Option Unit
  active_requests : List Nat
deriving DecidableEq

/-- The state established by `__init__`: empty store, no background
task, empty active-request list. -/
def initState : NodeState :=
  { table := [], glet := none, active_requests := [] }

/-- Lifecycle `start()`: a no-op when a background task handle already exists;
otherwise spawn `_run` after the drawn jitter delay and record the
handle. -/
def start (st : NodeState) (jitter : Int) : NodeState × List Effect :=
  match st.glet with
  | some _ => (st, [])
  | none => ({ st with glet := some () }, [.spawnTask jitter])

/-- Lifecycle `stop()`: a no-op when no background task handle exists; otherwise
kill every tracked active request, then kill the background task.  The
handle `glet` is not cleared. -/
def stop (st : NodeState) : NodeState × List Effect :=
  match st.glet with
  | some _ => (st, st.active_requests.map .killRequest ++ [.killTask])
  | none => (st, [])

/-! ## The RPC query surface (`get`, `get_all`, `get_range`, `length`) -/

/-- A Python value passed as the `indicator` RPC argument. -/
inductive PyVal where
  | pStr (s : PyStr)
  | pInt (n : Int)
  | pNone
deriving DecidableEq

/-- The kinds of exception the RPC surface raises. -/
inductive PyExc where
  /-- Python `ValueError` with a descriptive message. -/
  | valueError
deriving DecidableEq

/-- Helper `_send_indicators`: query the `_updated` index over the given range
and send one update RPC per entry, in query order. -/
def send_indicators (st : NodeState) (fromKey toKey : Option Int) :
    List (Key × Attrs) :=
  tableQuery st.table fromKey toKey

/-- RPC `get(source, indicator)`: raise `ValueError` when the indicator is
not a string, else return the stored record or absent.  The result is
the returned value (or exception), the node state afterwards, and the
update RPCs sent. -/
def get (st : NodeState) (indicator : PyVal) :
    Except PyExc (Option Attrs) × NodeState × List (Key × Attrs) :=
  match indicator with
  | .pStr s => (.ok (tableGet st.table s), st, [])
  | _ => (.error .valueError, st, [])

/-- RPC `get_range(source, index, from_key, to_key)`: raise `ValueError`
when an index name is given and it is not `_updated`; else stream the
indicators in the range and acknowledge. -/
def get_range (st : NodeState) (index : Option PyStr)
    (fromKey toKey : Option Int) :
    Except PyExc Unit × NodeState × List (Key × Attrs) :=
  match index with
  | some idx =>
    if idx = kUpdated then (.ok (), st, send_indicators st fromKey toKey)
    else (.error .valueError, st, [])
  | none => (.ok (), st, send_indicators st fromKey toKey)

/-- RPC `get_all(source)`: stream every indicator and acknowledge. -/
def get_all (st : NodeState) :
    Except PyExc Unit × NodeState × List (Key × Attrs) :=
  (.ok (), st, send_indicators st none none)

/-- RPC `length(source)`: the current record count. -/
def length (st : NodeState) : Nat := st.table.length

/-! ## Operations interleaving on a node -/

/-- An operation invoked on the node: a lifecycle call, a full
reconciliation cycle run by the background task (with the fetched lines
and the clock readings of that cycle), or an RPC query. -/
inductive Op where
  | opStart (jitter : Int)
  | opStop
  | opCycle (lines : List PyStr) (clock : Nat → Int)
  | opGet (indicator : PyVal)
  | opGetAll
  | opGetRange (index : Option PyStr) (fromKey toKey : Option Int)
  | opLength

/-- State transition of one operation, with the lifecycle effects it
performs.  Only `start` and `stop` spawn or kill; a cycle rewrites the
store (also when it raises mid-way); RPC queries only read. -/
def step (cfg : Config) (st : NodeState) : Op → NodeState × List Effect
  | .opStart j => start st j
  | .opStop => stop st
  | .opCycle lines clock =>
    ({ st with table := (polling_loop cfg values_compare clock lines st.table).tbl }, [])
  | .opGet _ => (st, [])
  | .opGetAll => (st, [])
  | .opGetRange _ _ _ => (st, [])
  | .opLength => (st, [])

/-- Run a sequence of operations from a state. -/
def runOps (cfg : Config) (st : NodeState) : List Op → NodeState
  | [] => st
  | op :: ops => runOps cfg (step cfg st op).1 ops

instance (t : Table) : Decidable (TableWF t) :=
  inferInstanceAs (Decidable (List.Nodup _))

/-! ## Concrete fixtures used in counterexamples and witnesses -/

/-- A concrete configuration: source name `s`, comment prefix `#`,
split character `,` with token position 1, no static attributes,
interval 1 second, `force_updates` off, 2 retries. -/
def cexCfg : Config :=
  { source_name := ['s']
    cchar := some ['#']
    split_char := some ','
    split_pos := 1
    attributes := []
    interval := 1
    force_updates := false
    num_retries := 2 }

/-- A concrete store with two stale entries: key `a` updated at 5 and
key `b` updated at 3. -/
def cexStaleTable : Table :=
  [(['a'], [(kUpdated, Value.vInt 5)]), (['b'], [(kUpdated, Value.vInt 3)])]

/-- A node state whose background task handle is set (as after a
successful `start()`). -/
def startedState : NodeState :=
  { table := [], glet := some (), active_requests := [] }

/-- A concrete store with one entry carrying a `first_seen` timestamp. -/
def cexSeenTable : Table :=
  [(['a'], [(kUpdated, Value.vInt 5), (kFirstSeen, Value.vInt 2)])]

/-! ## Lemmas -/

/-! ### Store lemmas -/

theorem tableGet_eq_some_mem {t : Table} {k : Key} {v : Attrs}
    (h : tableGet t k = some v) : (k, v) ∈ t := by
  induction t with
  | nil => simp [tableGet] at h
  | cons p rest ih =>
    obtain ⟨k0, v0⟩ := p
    simp only [tableGet] at h
    split at h
    · rename_i hk
      cases h
      subst hk
      exact List.mem_cons_self _ _
    · exact List.mem_cons_of_mem _ (ih h)

theorem mem_tableGet {t : Table} {k : Key} {v : Attrs}
    (hwf : TableWF t) (h : (k, v) ∈ t) : tableGet t k = some v := by
  induction t with
  | nil => simp at h
  | cons p rest ih =>
    obtain ⟨k0, v0⟩ := p
    simp only [TableWF, List.map_cons, List.nodup_cons] at hwf
    rcases List.mem_cons.mp h with h1 | h1
    · cases h1
      simp [tableGet]
    · have hk : k0 ≠ k := by
        intro he
        subst he
        exact hwf.1 (List.mem_map_of_mem Prod.fst h1)
      simp only [tableGet, if_neg hk]
      exact ih hwf.2 h1

theorem tableGet_tablePut_self (t : Table) (k : Key) (v : Attrs) :
    tableGet (tablePut t k v) k = some v := by
  induction t with
  | nil => simp [tablePut, tableGet]
  | cons p rest ih =>
    obtain ⟨k0, v0⟩ := p
    simp only [tablePut]
    split
    · simp [tableGet]
    · rename_i hk
      simp only [tableGet, if_neg hk]
      exact ih

theorem tableGet_tablePut_ne (t : Table) (k k' : Key) (v : Attrs)
    (h : k' ≠ k) : tableGet (tablePut t k v) k' = tableGet t k' := by
  have hne : k ≠ k' := Ne.symm h
  induction t with
  | nil => simp [tablePut, tableGet, hne]
  | cons p rest ih =>
    obtain ⟨k0, v0⟩ := p
    simp only [tablePut]
    split
    · rename_i hk
      subst hk
      simp [tableGet, hne]
    · simp only [tableGet]
      split
      · rfl
      · exact ih

theorem tableGet_tableDelete_self (t : Table) (k : Key) :
    tableGet (tableDelete t k) k = none := by
  induction t with
  | nil => simp [tableDelete, tableGet]
  | cons p rest ih =>
    obtain ⟨k0, v0⟩ := p
    simp only [tableDelete]
    split
    · exact ih
    · rename_i hk
      simp only [tableGet, if_neg hk]
      exact ih

theorem tableGet_tableDelete_ne (t : Table) (k k' : Key)
    (h : k' ≠ k) : tableGet (tableDelete t k) k' = tableGet t k' := by
  have hne : k ≠ k' := Ne.symm h
  induction t with
  | nil => simp [tableDelete]
  | cons p rest ih =>
    obtain ⟨k0, v0⟩ := p
    simp only [tableDelete]
    split
    · rename_i hk
      subst hk
      simp only [tableGet, if_neg hne]
      exact ih
    · simp only [tableGet]
      split
      · rfl
      · exact ih

theorem tableGet_tableDelete_some {t : Table} {k k' : Key} {v : Attrs}
    (h : tableGet (tableDelete t k) k' = some v) : tableGet t k' = some v := by
  by_cases hk : k' = k
  · subst hk
    rw [tableGet_tableDelete_self] at h
    cases h
  · rwa [tableGet_tableDelete_ne t k k' hk] at h


/-! ### Sorting lemmas -/

theorem strLE_total (a b : PyStr) : strLE a b = true ∨ strLE b a = true := by
  induction a generalizing b with
  | nil => left; rfl
  | cons x xs ih =>
    cases b with
    | nil => right; rfl
    | cons y ys =>
      by_cases hxy : x.toNat = y.toNat
      · simp only [strLE, hxy, if_pos rfl, if_pos hxy.symm]
        simpa [if_pos hxy] using ih ys
      · rcases Nat.lt_or_ge x.toNat y.toNat with hlt | hge
        · left
          simp [strLE, hxy, hlt]
        · right
          have hyx : y.toNat ≠ x.toNat := fun he => hxy he.symm
          have : y.toNat < x.toNat := lt_of_le_of_ne hge hyx
          simp [strLE, hyx, this]

theorem updKeyLEb_total (p q : Key × Attrs) :
    updKeyLEb p q = true ∨ updKeyLEb q p = true := by
  rcases lt_trichotomy (updOf p.2) (updOf q.2) with h | h | h
  · left
    simp [updKeyLEb, h]
  · rcases strLE_total p.1 q.1 with hs | hs
    · left
      simp [updKeyLEb, h, hs]
    · right
      simp [updKeyLEb, h.symm, hs]
  · right
    simp [updKeyLEb, h]

theorem mem_insertSorted {x z : Key × Attrs} {l : List (Key × Attrs)} :
    z ∈ insertSorted x l ↔ z = x ∨ z ∈ l := by
  induction l with
  | nil => simp [insertSorted]
  | cons y ys ih =>
    simp only [insertSorted]
    split
    · simp
    · simp only [List.mem_cons, ih]
      tauto

theorem mem_sortByUpdKey {z : Key × Attrs} {l : List (Key × Attrs)} :
    z ∈ sortByUpdKey l ↔ z ∈ l := by
  induction l with
  | nil => simp [sortByUpdKey]
  | cons y ys ih =>
    simp only [sortByUpdKey, List.foldr_cons]
    rw [mem_insertSorted]
    simp only [sortByUpdKey] at ih
    rw [ih]
    simp

theorem chain_insertSorted {x : Key × Attrs} {l : List (Key × Attrs)}
    (h : List.Chain' (fun p q => updKeyLEb p q = true) l) :
    List.Chain' (fun p q => updKeyLEb p q = true) (insertSorted x l) := by
  induction l with
  | nil => simp [insertSorted]
  | cons y ys ih =>
    simp only [insertSorted]
    split
    · rename_i hxy
      exact List.Chain'.cons hxy h
    · rename_i hxy
      have hyx : updKeyLEb y x = true := by
        rcases updKeyLEb_total x y with h1 | h1
        · exact absurd h1 hxy
        · exact h1
      have hys : List.Chain' (fun p q => updKeyLEb p q = true) ys :=
        List.Chain'.tail h
      have htail := ih hys
      cases hys2 : insertSorted x ys with
      | nil => simp [List.chain'_singleton]
      | cons z zs =>
        rw [hys2] at htail
        refine List.Chain'.cons ?_ htail
        cases ys with
        | nil =>
          simp [insertSorted] at hys2
          rw [← hys2.1]
          exact hyx
        | cons w ws =>
          simp only [insertSorted] at hys2
          split at hys2
          · cases hys2
            exact hyx
          · cases hys2
            exact (List.chain'_cons.mp h).1

theorem chain_sortByUpdKey (l : List (Key × Attrs)) :
    List.Chain' (fun p q => updKeyLEb p q = true) (sortByUpdKey l) := by
  induction l with
  | nil => simp [sortByUpdKey]
  | cons y ys ih =>
    simpa only [sortByUpdKey, List.foldr_cons] using chain_insertSorted ih

theorem updKeyLEb_le {p q : Key × Attrs} (h : updKeyLEb p q = true) :
    updOf p.2 ≤ updOf q.2 := by
  simp only [updKeyLEb, Bool.or_eq_true, Bool.and_eq_true, decide_eq_true_eq] at h
  rcases h with h | ⟨h, _⟩
  · exact le_of_lt h
  · exact le_of_eq h

theorem chain_upd_tableQuery (tbl : Table) (fromKey toKey : Option Int) :
    List.Chain' (fun p q => updOf p.2 ≤ updOf q.2)
      (tableQuery tbl fromKey toKey) :=
  List.Chain'.imp (fun _ _ h => updKeyLEb_le h) (chain_sortByUpdKey _)

theorem mem_tableQuery {tbl : Table} {fromKey toKey : Option Int}
    {p : Key × Attrs} :
    p ∈ tableQuery tbl fromKey toKey ↔
      p ∈ tbl ∧ inRangeB fromKey toKey (updOf p.2) = true := by
  simp [tableQuery, mem_sortByUpdKey, List.mem_filter]

/-! ### Attribute-map lemmas -/

theorem lookupA_setA_self (a : Attrs) (k : Key) (v : Value) :
    lookupA (setA a k v) k = some v := by
  induction a with
  | nil => simp [setA, lookupA]
  | cons p rest ih =>
    obtain ⟨k0, v0⟩ := p
    simp only [setA]
    split
    · simp [lookupA]
    · rename_i hk
      simp only [lookupA, if_neg hk]
      exact ih

theorem lookupA_setA_ne (a : Attrs) (k k' : Key) (v : Value)
    (h : k' ≠ k) : lookupA (setA a k v) k' = lookupA a k' := by
  have hne : k ≠ k' := Ne.symm h
  induction a with
  | nil => simp [setA, lookupA, hne]
  | cons p rest ih =>
    obtain ⟨k0, v0⟩ := p
    simp only [setA]
    split
    · rename_i hk
      subst hk
      simp [lookupA, hne]
    · simp only [lookupA]
      split
      · rfl
      · exact ih

/-! ### Shape of the per-indicator step -/

theorem processIndicator_none (cfg : Config) (cmp : Attrs → Attrs → Bool)
    (clock : Nat → Int) (tbl : Table) (indicator : PyStr) (attrs0 : Attrs)
    (i : Nat) (hev : tableGet tbl indicator = none) :
    processIndicator cfg cmp clock tbl indicator attrs0 i =
      (tablePut tbl indicator (newAttrsNew cfg clock attrs0 i),
       some (indicator, newAttrsNew cfg clock attrs0 i), i + 3) := by
  simp [processIndicator, hev, newAttrsNew]

theorem processIndicator_some (cfg : Config) (cmp : Attrs → Attrs → Bool)
    (clock : Nat → Int) (tbl : Table) (indicator : PyStr) (attrs0 : Attrs)
    (i : Nat) (old : Attrs) (hev : tableGet tbl indicator = some old) :
    processIndicator cfg cmp clock tbl indicator attrs0 i =
      (tablePut tbl indicator (newAttrsOld cfg clock attrs0 old i),
       if !cfg.force_updates && cmp old (newAttrsOld cfg clock attrs0 old i)
         then none
         else some (indicator, newAttrsOld cfg clock attrs0 old i),
       i + 2) := by
  cases hf : cfg.force_updates <;>
    cases hc : cmp old (newAttrsOld cfg clock attrs0 old i) <;>
      simp only [newAttrsOld] at hc <;>
      simp [processIndicator, hev, newAttrsOld, hf, hc]

theorem newAttrsNew_fields (cfg : Config) (clock : Nat → Int)
    (attrs0 : Attrs) (i : Nat) :
    lookupA (newAttrsNew cfg clock attrs0 i) kUpdated =
      some (.vInt (clock i)) ∧
    lookupA (newAttrsNew cfg clock attrs0 i) kFirstSeen =
      some (.vInt (clock (i + 1))) ∧
    lookupA (newAttrsNew cfg clock attrs0 i) kLastSeen =
      some (.vInt (clock (i + 2))) := by
  unfold newAttrsNew
  refine ⟨?_, ?_, ?_⟩
  · rw [lookupA_setA_ne _ _ _ _ (by decide), lookupA_setA_ne _ _ _ _ (by decide),
      lookupA_setA_self]
  · rw [lookupA_setA_ne _ _ _ _ (by decide), lookupA_setA_self]
  · rw [lookupA_setA_self]

theorem newAttrsOld_fields (cfg : Config) (clock : Nat → Int)
    (attrs0 old : Attrs) (i : Nat) :
    lookupA (newAttrsOld cfg clock attrs0 old i) kUpdated =
      some (.vInt (clock i)) ∧
    lookupA (newAttrsOld cfg clock attrs0 old i) kFirstSeen =
      some (getA old kFirstSeen) ∧
    lookupA (newAttrsOld cfg clock attrs0 old i) kLastSeen =
      some (.vInt (clock (i + 1))) := by
  unfold newAttrsOld
  refine ⟨?_, ?_, ?_⟩
  · rw [lookupA_setA_ne _ _ _ _ (by decide), lookupA_setA_ne _ _ _ _ (by decide),
      lookupA_setA_self]
  · rw [lookupA_setA_ne _ _ _ _ (by decide), lookupA_setA_self]
  · rw [lookupA_setA_self]

/-- Every record the per-indicator step leaves in the store either was
already there or carries `_updated = clock i`. -/
theorem processIndicator_get (cfg : Config) (cmp : Attrs → Attrs → Bool)
    (clock : Nat → Int) (tbl : Table) (indicator : PyStr) (attrs0 : Attrs)
    (i : Nat) {k : Key} {v : Attrs}
    (h : tableGet (processIndicator cfg cmp clock tbl indicator attrs0 i).1 k =
      some v) :
    tableGet tbl k = some v ∨ lookupA v kUpdated = some (.vInt (clock i)) := by
  by_cases hk : k = indicator
  · subst hk
    cases hev : tableGet tbl k with
    | none =>
      rw [processIndicator_none cfg cmp clock tbl k attrs0 i hev] at h
      dsimp only at h
      rw [tableGet_tablePut_self] at h
      cases h
      exact Or.inr (newAttrsNew_fields cfg clock attrs0 i).1
    | some old =>
      rw [processIndicator_some cfg cmp clock tbl k attrs0 i old hev] at h
      dsimp only at h
      rw [tableGet_tablePut_self] at h
      cases h
      exact Or.inr (newAttrsOld_fields cfg clock attrs0 old i).1
  · left
    cases hev : tableGet tbl indicator with
    | none =>
      rw [processIndicator_none cfg cmp clock tbl indicator attrs0 i hev] at h
      dsimp only at h
      rwa [tableGet_tablePut_ne _ _ _ _ hk] at h
    | some old =>
      rw [processIndicator_some cfg cmp clock tbl indicator attrs0 i old hev] at h
      dsimp only at h
      rwa [tableGet_tablePut_ne _ _ _ _ hk] at h

/-- Every record the per-line loop leaves in the store either was
already there or carries an `_updated` at or after the cycle start. -/
theorem runLines_fresh (cfg : Config) (cmp : Attrs → Attrs → Bool)
    (clock : Nat → Int) (hmono : ∀ n, clock 0 ≤ clock n) :
    ∀ (lines : List PyStr) (tbl : Table) (i : Nat) (k : Key) (v : Attrs),
      tableGet (runLines cfg cmp clock lines tbl i).tbl k = some v →
      tableGet tbl k = some v ∨
        ∃ n, lookupA v kUpdated = some (.vInt n) ∧ clock 0 ≤ n := by
  intro lines
  induction lines with
  | nil =>
    intro tbl i k v h
    exact Or.inl h
  | cons raw rest ih =>
    intro tbl i k v h
    simp only [runLines] at h
    cases hf : filterLine cfg raw with
    | none =>
      rw [hf] at h
      exact ih tbl i k v h
    | some line =>
      rw [hf] at h
      dsimp only at h
      cases hp : process_line cfg line with
      | error u =>
        rw [hp] at h
        exact Or.inl h
      | ok pr =>
        obtain ⟨ind, a0⟩ := pr
        rw [hp] at h
        dsimp only at h
        rcases ih _ _ k v h with h1 | h1
        · rcases processIndicator_get cfg cmp clock tbl ind a0 i h1 with h2 | h2
          · exact Or.inl h2
          · exact Or.inr ⟨clock i, h2, hmono i⟩
        · exact Or.inr h1

/-! ### Folded-deletion lemmas -/

theorem foldl_delete_absent {k : Key} :
    ∀ (l : List (Key × Attrs)) (tbl : Table), tableGet tbl k = none →
      tableGet (l.foldl (fun t p => tableDelete t p.1) tbl) k = none := by
  intro l
  induction l with
  | nil =>
    intro tbl h
    exact h
  | cons p ps ih =>
    intro tbl h
    simp only [List.foldl_cons]
    apply ih
    by_cases hk : k = p.1
    · rw [hk]
      exact tableGet_tableDelete_self tbl p.1
    · rw [tableGet_tableDelete_ne _ _ _ hk]
      exact h

theorem foldl_delete_mem {k : Key} :
    ∀ (l : List (Key × Attrs)) (tbl : Table), k ∈ l.map Prod.fst →
      tableGet (l.foldl (fun t p => tableDelete t p.1) tbl) k = none := by
  intro l
  induction l with
  | nil =>
    intro tbl h
    simp at h
  | cons p ps ih =>
    intro tbl h
    simp only [List.map_cons, List.mem_cons] at h
    simp only [List.foldl_cons]
    rcases h with h1 | h1
    · refine foldl_delete_absent ps _ ?_
      rw [h1]
      exact tableGet_tableDelete_self tbl p.1
    · exact ih _ h1

theorem foldl_delete_not_mem {k : Key} :
    ∀ (l : List (Key × Attrs)) (tbl : Table), k ∉ l.map Prod.fst →
      tableGet (l.foldl (fun t p => tableDelete t p.1) tbl) k =
        tableGet tbl k := by
  intro l
  induction l with
  | nil =>
    intro tbl _
    rfl
  | cons p ps ih =>
    intro tbl h
    simp only [List.map_cons, List.mem_cons] at h
    push_neg at h
    simp only [List.foldl_cons]
    rw [ih _ h.2, tableGet_tableDelete_ne _ _ _ h.1]

theorem foldl_delete_some {k : Key} {v : Attrs} :
    ∀ (l : List (Key × Attrs)) (tbl : Table),
      tableGet (l.foldl (fun t p => tableDelete t p.1) tbl) k = some v →
      tableGet tbl k = some v := by
  intro l
  induction l with
  | nil =>
    intro tbl h
    exact h
  | cons p ps ih =>
    intro tbl h
    simp only [List.foldl_cons] at h
    exact tableGet_tableDelete_some (ih _ h)

/-! ### Lifecycle invariants -/

theorem step_glet_ne_none (cfg : Config) (st : NodeState) (op : Op)
    (h : st.glet ≠ none) : ((step cfg st op).1).glet ≠ none := by
  cases op with
  | opStart j =>
    cases hg : st.glet with
    | none => exact absurd hg h
    | some u => simp [step, start, hg]
  | opStop =>
    cases hg : st.glet with
    | none => exact absurd hg h
    | some u => simp [step, stop, hg]
  | opCycle lines clock => exact h
  | opGet i => exact h
  | opGetAll => exact h
  | opGetRange a b c => exact h
  | opLength => exact h

theorem runOps_glet_ne_none (cfg : Config) :
    ∀ (ops : List Op) (st : NodeState), st.glet ≠ none →
      (runOps cfg st ops).glet ≠ none := by
  intro ops
  induction ops with
  | nil =>
    intro st h
    exact h
  | cons op rest ih =>
    intro st h
    exact ih _ (step_glet_ne_none cfg st op h)

theorem step_active_requests (cfg : Config) (st : NodeState) (op : Op) :
    ((step cfg st op).1).active_requests = st.active_requests := by
  cases op with
  | opStart j => cases hg : st.glet <;> simp [step, start, hg]
  | opStop => cases hg : st.glet <;> simp [step, stop, hg]
  | opCycle lines clock => rfl
  | opGet i => rfl
  | opGetAll => rfl
  | opGetRange a b c => rfl
  | opLength => rfl

theorem runOps_active_requests (cfg : Config) :
    ∀ (ops : List Op) (st : NodeState),
      (runOps cfg st ops).active_requests = st.active_requests := by
  intro ops
  induction ops with
  | nil =>
    intro st
    rfl
  | cons op rest ih =>
    intro st
    rw [runOps, ih, step_active_requests]

/-! ### Overrun-adjustment lemmas -/

theorem adjustGo_nonneg {I : Int} (hI : 1 ≤ I) :
    ∀ (n : Nat) (d : Int), (-d).toNat ≤ n → 0 ≤ adjustGo I n d := by
  intro n
  induction n with
  | zero =>
    intro d h
    simp only [adjustGo]
    omega
  | succ m ih =>
    intro d h
    by_cases hd : d < 0
    · simp only [adjustGo, if_pos hd]
      exact ih (d + I) (by omega)
    · simp only [adjustGo, if_neg hd]
      omega

theorem adjustGo_le {I : Int} (_hI : 1 ≤ I) :
    ∀ (n : Nat) (d : Int), d ≤ I → adjustGo I n d ≤ I := by
  intro n
  induction n with
  | zero =>
    intro d h
    exact h
  | succ m ih =>
    intro d h
    by_cases hd : d < 0
    · simp only [adjustGo, if_pos hd]
      exact ih (d + I) (by omega)
    · simp only [adjustGo, if_neg hd]
      exact h

theorem adjustDelta_nonneg {I : Int} (hI : 1 ≤ I) (d : Int) :
    0 ≤ adjustDelta I d :=
  adjustGo_nonneg hI _ d (by omega)

theorem adjustDelta_le {I : Int} (hI : 1 ≤ I) {d : Int} (h : d ≤ I) :
    adjustDelta I d ≤ I :=
  adjustGo_le hI _ d h

/-! ## Claims -/

/-- C5: when a reconciliation cycle fails, the retry counter is
incremented; if the incremented counter is strictly below
`num_retries`, the loop sleeps a jitter drawn by `randint(1, 5)` (a
duration in `[1, 5]` seconds) and immediately retries the cycle
without computing the inter-cycle remaining time; if the counter has
reached `num_retries`, the loop falls through to normal interval
scheduling with the counter reset to 0; on a successful cycle the
counter is reset to 0. -/
theorem c5_retry_logic (cfg : Config) (tryn : Nat)
    (jitter lastrun now : Int) (hj : randint 1 5 jitter) :
    (run_iteration cfg tryn .success jitter lastrun now =
      (0, .intervalSleep
        (adjustDelta (cfg.interval * 1000)
          (lastrun + cfg.interval * 1000 - now)))) ∧
    (tryn + 1 < cfg.num_retries →
      run_iteration cfg tryn .failure jitter lastrun now =
        (tryn + 1, .retrySleep jitter) ∧
      1 ≤ jitter ∧ jitter ≤ 5) ∧
    (¬ tryn + 1 < cfg.num_retries →
      run_iteration cfg tryn .failure jitter lastrun now =
        (0, .intervalSleep
          (adjustDelta (cfg.interval * 1000)
            (lastrun + cfg.interval * 1000 - now)))) := by
  refine ⟨rfl, ?_, ?_⟩
  · intro h
    exact ⟨by simp [run_iteration, if_pos h], hj.1, hj.2⟩
  · intro h
    simp [run_iteration, if_neg h]

/-- Witness for C5 at a concrete input: with `num_retries = 2`, a first
failure with jitter 3 retries immediately with counter 1; a second
failure falls through to interval scheduling with counter 0. -/
theorem c5_retry_logic_witness :
    (run_iteration cexCfg 0 .failure 3 0 0 = (1, .retrySleep 3) ∧
      (1 : Int) ≤ 3 ∧ (3 : Int) ≤ 5) ∧
    run_iteration cexCfg 1 .failure 3 0 0 =
      (0, .intervalSleep (adjustDelta (cexCfg.interval * 1000)
        (0 + cexCfg.interval * 1000 - 0))) :=
  ⟨(c5_retry_logic cexCfg 0 3 0 0 (by decide)).2.1 (by decide),
   (c5_retry_logic cexCfg 1 3 0 0 (by decide)).2.2 (by decide)⟩

/-- C6 counterexample: with interval 1 second and a cycle that starts
and ends within the same millisecond (`lastrun = now = 0`), the
remaining time slept is exactly `interval` milliseconds, refuting the
claimed strict bound `remaining < interval`. -/
theorem c6_counterexample :
    (0 : Int) < cexCfg.interval ∧
    run_iteration cexCfg 0 .success 3 0 0 = (0, .intervalSleep 1000) ∧
    ¬ (1000 : Int) < cexCfg.interval * 1000 := by
  decide

/-- C6 amended: after each cycle the remaining time is computed as
`lastrun + interval − now` in milliseconds; for every positive
configured interval and a clock that did not go backwards, the
overrun-adjustment loop terminates (it reaches a non-negative value
rather than exhausting its step bound) and the final remaining time
slept satisfies `0 ≤ remaining ≤ interval` in milliseconds. -/
theorem c6_interval_adjust_amended (cfg : Config) (tryn : Nat)
    (jitter lastrun now : Int) (hI : 1 ≤ cfg.interval)
    (hmono : lastrun ≤ now) :
    run_iteration cfg tryn .success jitter lastrun now =
      (0, .intervalSleep
        (adjustDelta (cfg.interval * 1000)
          (lastrun + cfg.interval * 1000 - now))) ∧
    0 ≤ adjustDelta (cfg.interval * 1000)
          (lastrun + cfg.interval * 1000 - now) ∧
    adjustDelta (cfg.interval * 1000)
          (lastrun + cfg.interval * 1000 - now) ≤ cfg.interval * 1000 := by
  have h1 : (1 : Int) ≤ cfg.interval * 1000 := by nlinarith
  refine ⟨rfl, adjustDelta_nonneg h1 _, adjustDelta_le h1 (by omega)⟩

/-- Witness for C6 amended at a concrete input: interval 1 second,
cycle start 0, cycle end 400 milliseconds later. -/
theorem c6_interval_adjust_amended_witness :
    0 ≤ adjustDelta (cexCfg.interval * 1000)
          (0 + cexCfg.interval * 1000 - 400) ∧
    adjustDelta (cexCfg.interval * 1000)
          (0 + cexCfg.interval * 1000 - 400) ≤ cexCfg.interval * 1000 :=
  (c6_interval_adjust_amended cexCfg 0 3 0 400 (by decide) (by decide)).2

/-- C7 counterexample: the first-cycle delay is drawn by
`random.randint(0, 2)`, whose endpoints are both included; the draw 2
is possible, `start()` then schedules the first cycle after exactly 2
seconds, refuting the claimed delay interval `[0, 2)`. -/
theorem c7_counterexample :
    randint 0 2 2 ∧
    (start initState 2).2 = [Effect.spawnTask 2] ∧
    ¬ (2 : Int) < 2 := by
  decide

/-- C7 amended: `start()` is an idempotent no-op whenever a background
task handle already exists (a second call changes nothing and spawns no
task); otherwise it schedules the first cycle after a random delay
drawn by `randint(0, 2)`, an integer number of seconds in the closed
interval `[0, 2]`. -/
theorem c7_start_amended (st : NodeState) (j : Int) (hj : randint 0 2 j) :
    (st.glet ≠ none → start st j = (st, [])) ∧
    (st.glet = none →
      (start st j).1 = { st with glet := some () } ∧
      (start st j).2 = [Effect.spawnTask j] ∧ 0 ≤ j ∧ j ≤ 2) := by
  constructor
  · intro h
    cases hg : st.glet with
    | none => exact absurd hg h
    | some u => simp [start, hg]
  · intro h
    exact ⟨by simp [start, h], by simp [start, h], hj.1, hj.2⟩

/-- Witness for C7 amended at a concrete input: a fresh node started
with jitter 1 spawns the task after 1 second; the started node's
second `start()` call is a no-op. -/
theorem c7_start_amended_witness :
    ((start initState 1).1 = { initState with glet := some () } ∧
      (start initState 1).2 = [Effect.spawnTask 1] ∧
      (0 : Int) ≤ 1 ∧ (1 : Int) ≤ 2) ∧
    start startedState 1 = (startedState, []) :=
  ⟨(c7_start_amended initState 1 (by decide)).2 rfl,
   (c7_start_amended startedState 1 (by decide)).1 (by decide)⟩

/-- C8: `stop()` never clears the background task handle: it returns
the state with `glet` unchanged, so once the handle is set it remains
set after any sequence of operations, and every later `start()` call
returns the state unchanged and spawns nothing — the node cannot be
restarted after a stop. -/
theorem c8_stop_keeps_handle (cfg : Config) (st : NodeState)
    (h : st.glet ≠ none) (ops : List Op) :
    (∀ s : NodeState, ((stop s).1).glet = s.glet) ∧
    (runOps cfg st ops).glet ≠ none ∧
    (∀ j, step cfg (runOps cfg st ops) (Op.opStart j) =
      (runOps cfg st ops, [])) := by
  refine ⟨?_, runOps_glet_ne_none cfg ops st h, ?_⟩
  · intro s
    cases hg : s.glet with
    | none => simp [stop, hg]
    | some u => simp [stop, hg]
  · intro j
    have h2 := runOps_glet_ne_none cfg ops st h
    cases hg : (runOps cfg st ops).glet with
    | none => exact absurd hg h2
    | some u => simp [step, start, hg]

/-- Witness for C8 at concrete inputs: after starting and stopping, the
handle is still set and a further `start()` changes nothing and spawns
nothing. -/
theorem c8_stop_keeps_handle_witness :
    (runOps cexCfg startedState [Op.opStop]).glet ≠ none ∧
    step cexCfg (runOps cexCfg startedState [Op.opStop]) (Op.opStart 1) =
      (runOps cexCfg startedState [Op.opStop], []) :=
  ⟨(c8_stop_keeps_handle cexCfg startedState (by decide) [Op.opStop]).2.1,
   (c8_stop_keeps_handle cexCfg startedState (by decide) [Op.opStop]).2.2 1⟩

/-- C9: no operation of the node ever inserts into the active-request
list: starting from the initial state it is empty after any sequence of
operations, so `stop()`'s loop over tracked active requests kills
nothing — the in-flight HTTP request of the polling loop is never
tracked. -/
theorem c9_active_requests_empty (cfg : Config) (ops : List Op) :
    (runOps cfg initState ops).active_requests = [] ∧
    ∀ g, Effect.killRequest g ∉ (stop (runOps cfg initState ops)).2 := by
  have ha : (runOps cfg initState ops).active_requests = [] := by
    rw [runOps_active_requests]
    rfl
  refine ⟨ha, ?_⟩
  intro g hg
  cases hgl : (runOps cfg initState ops).glet with
  | none => simp [stop, hgl] at hg
  | some u => simp [stop, hgl, ha] at hg

/-- C10: there is a fetched line that is neither empty, nor
comment-prefixed, nor short of tokens, whose processing raises instead
of silently skipping: with split character `,` and split position 1,
the line `a,  ,b` passes all filters, its selected token strips to the
empty string, and the default transform's `line.split()[0]` indexes an
empty whitespace-split list, raising `IndexError` and failing the whole
cycle. -/
theorem c10_empty_token_raises :
    pyStrip [ 'a', ',', ' ', ' ', ',', 'b'] ≠ [] ∧
    (['#'] : PyStr).isPrefixOf (pyStrip [ 'a', ',', ' ', ' ', ',', 'b']) = false ∧
    ¬ (splitOnChar ',' (pyStrip [ 'a', ',', ' ', ' ', ',', 'b'])).length <
        cexCfg.split_pos + 1 ∧
    filterLine cexCfg [ 'a', ',', ' ', ' ', ',', 'b'] = some [] ∧
    (process_line cexCfg []).isOk = false ∧
    (polling_loop cexCfg values_compare (fun _ => 0)
      [[ 'a', ',', ' ', ' ', ',', 'b']] []).err = true := by
  decide

/-- C3: for every indicator written during a cycle, when a record for
its key already existed the new record's `first_seen` equals the old
record's `first_seen`, otherwise `first_seen` is set to the current
clock reading; `last_seen` is always set to the current clock reading;
and, with a clock that never reads before the cycle-start reading
`clock 0`, every record in the store after the cycle either predates
the cycle unchanged or carries `_updated ≥ clock 0`. -/
theorem c3_timestamps (cfg : Config) (cmp : Attrs → Attrs → Bool)
    (clock : Nat → Int) (lines : List PyStr) (tbl : Table)
    (indicator : PyStr) (attrs0 : Attrs) (i : Nat)
    (hmono : ∀ n, clock 0 ≤ clock n) :
    (∀ old v, tableGet tbl indicator = some old →
      lookupA old kFirstSeen = some v →
      ∃ na,
        tableGet (processIndicator cfg cmp clock tbl indicator attrs0 i).1
            indicator = some na ∧
        lookupA na kFirstSeen = some v ∧
        lookupA na kLastSeen = some (.vInt (clock (i + 1))) ∧
        lookupA na kUpdated = some (.vInt (clock i)) ∧
        clock 0 ≤ clock i) ∧
    (tableGet tbl indicator = none →
      ∃ na,
        tableGet (processIndicator cfg cmp clock tbl indicator attrs0 i).1
            indicator = some na ∧
        lookupA na kFirstSeen = some (.vInt (clock (i + 1))) ∧
        lookupA na kLastSeen = some (.vInt (clock (i + 2))) ∧
        lookupA na kUpdated = some (.vInt (clock i)) ∧
        clock 0 ≤ clock i) ∧
    (∀ k v, tableGet (polling_loop cfg cmp clock lines tbl).tbl k = some v →
      tableGet tbl k = some v ∨
        ∃ n, lookupA v kUpdated = some (.vInt n) ∧ clock 0 ≤ n) := by
  refine ⟨?_, ?_, ?_⟩
  · intro old v hev hfs
    refine ⟨newAttrsOld cfg clock attrs0 old i, ?_, ?_,
      (newAttrsOld_fields cfg clock attrs0 old i).2.2,
      (newAttrsOld_fields cfg clock attrs0 old i).1, hmono i⟩
    · rw [processIndicator_some cfg cmp clock tbl indicator attrs0 i old hev]
      exact tableGet_tablePut_self tbl indicator _
    · rw [(newAttrsOld_fields cfg clock attrs0 old i).2.1]
      unfold getA
      rw [hfs]
      rfl
  · intro hev
    refine ⟨newAttrsNew cfg clock attrs0 i, ?_,
      (newAttrsNew_fields cfg clock attrs0 i).2.1,
      (newAttrsNew_fields cfg clock attrs0 i).2.2,
      (newAttrsNew_fields cfg clock attrs0 i).1, hmono i⟩
    rw [processIndicator_none cfg cmp clock tbl indicator attrs0 i hev]
    exact tableGet_tablePut_self tbl indicator _
  · intro k v h
    simp only [polling_loop] at h
    split at h
    · exact runLines_fresh cfg cmp clock hmono lines tbl 1 k v h
    · dsimp only at h
      simp only [staleScan] at h
      exact runLines_fresh cfg cmp clock hmono lines tbl 1 k v
        (foldl_delete_some _ _ h)

/-- Witness for C3 at concrete inputs: with a constant clock at 100 and
a store whose key `a` has `first_seen = 2`, the re-written record keeps
`first_seen = 2`, sets `last_seen = 100` and `_updated = 100 ≥ 100`. -/
theorem c3_timestamps_witness :
    ∃ na,
      tableGet (processIndicator cexCfg values_compare (fun _ => 100)
          cexSeenTable ['a'] [] 1).1 ['a'] = some na ∧
      lookupA na kFirstSeen = some (.vInt 2) ∧
      lookupA na kLastSeen = some (.vInt 100) ∧
      lookupA na kUpdated = some (.vInt 100) ∧
      (100 : Int) ≤ 100 :=
  (c3_timestamps cexCfg values_compare (fun _ => 100) [] cexSeenTable
    ['a'] [] 1 (fun _ => le_refl 100)).1
    [(kUpdated, Value.vInt 5), (kFirstSeen, Value.vInt 2)]
    (Value.vInt 2) (by decide) (by decide)

/-- C4: `get(source, indicator)` raises `ValueError` iff the indicator
is not a string, and otherwise returns the stored record or absent;
`get_range(source, index, from, to)` raises `ValueError` iff an index
name is given and it is not the recognized timestamp index `_updated`;
in both error cases the node state (store and schedule) is returned
unchanged and no update RPC is sent. -/
theorem c4_rpc_validation (st : NodeState) (ind : PyVal)
    (index : Option PyStr) (fromKey toKey : Option Int) :
    (∀ s, ind = PyVal.pStr s →
      get st ind = (.ok (tableGet st.table s), st, [])) ∧
    ((∀ s, ind ≠ PyVal.pStr s) →
      get st ind = (.error .valueError, st, [])) ∧
    ((index = none ∨ index = some kUpdated) →
      (get_range st index fromKey toKey).1 = .ok ()) ∧
    (∀ idx, index = some idx → idx ≠ kUpdated →
      get_range st index fromKey toKey = (.error .valueError, st, [])) := by
  refine ⟨?_, ?_, ?_, ?_⟩
  · intro s hs
    subst hs
    rfl
  · intro h
    cases ind with
    | pStr s => exact absurd rfl (h s)
    | pInt n => rfl
    | pNone => rfl
  · intro h
    rcases h with h | h <;> subst h <;> simp [get_range]
  · intro idx hidx hne
    subst hidx
    simp [get_range, hne]

/-- C1 counterexample: on a store holding keys `a` (updated at 5) and
`b` (updated at 3), both stale for a cycle starting at `T = 10`, the
stale scan withdraws `b` before `a` — the timestamp-index order — so
the entries are not processed in ascending key order as claimed. -/
theorem c1_counterexample :
    tableGet cexStaleTable ['a'] = some [(kUpdated, Value.vInt 5)] ∧
    tableGet cexStaleTable ['b'] = some [(kUpdated, Value.vInt 3)] ∧
    (0 : Int) ≤ updOf [(kUpdated, Value.vInt 5)] ∧
    updOf [(kUpdated, Value.vInt 5)] < 10 - 1 ∧
    (0 : Int) ≤ updOf [(kUpdated, Value.vInt 3)] ∧
    updOf [(kUpdated, Value.vInt 3)] < 10 - 1 ∧
    (staleScan cexCfg 10 cexStaleTable).2.map Prod.fst = [['b'], ['a']] ∧
    ¬ List.Chain' (fun a b => strLE a b = true)
        ((staleScan cexCfg 10 cexStaleTable).2.map Prod.fst) := by
  refine ⟨by decide, by decide, by decide, by decide, by decide, by decide,
    by decide, ?_⟩
  intro hch
  rw [(by decide :
    (staleScan cexCfg 10 cexStaleTable).2.map Prod.fst = [['b'], ['a']])] at hch
  exact absurd (List.chain'_cons.mp hch).1 (by decide)

/-- C1 amended: at the end of each reconciliation cycle with
cycle-start timestamp `T`, every store entry whose `_updated` is
nonnegative and strictly less than `T − 1` is deleted from the store
and a withdraw `(key, {sources: [source name]})` is emitted for it, the
entries being processed in ascending `_updated` (timestamp-index)
order — not ascending key order; no entry with `_updated ≥ T − 1` is
deleted or withdrawn. -/
theorem c1_stale_scan_amended (cfg : Config) (T : Int) (tbl : Table)
    (hwf : TableWF tbl) :
    (∀ k v, tableGet tbl k = some v → 0 ≤ updOf v → updOf v < T - 1 →
      tableGet (staleScan cfg T tbl).1 k = none ∧
      (k, withdrawValue cfg) ∈ (staleScan cfg T tbl).2) ∧
    (∀ k v, tableGet tbl k = some v → T - 1 ≤ updOf v →
      tableGet (staleScan cfg T tbl).1 k = some v ∧
      ∀ w, (k, w) ∉ (staleScan cfg T tbl).2) ∧
    List.Chain' (fun p q => updOf p.2 ≤ updOf q.2)
      (tableQuery tbl (some 0) (some (T - 1))) := by
  refine ⟨?_, ?_, chain_upd_tableQuery tbl (some 0) (some (T - 1))⟩
  · intro k v hget h0 hT
    have hmem : (k, v) ∈ tableQuery tbl (some 0) (some (T - 1)) :=
      mem_tableQuery.mpr ⟨tableGet_eq_some_mem hget,
        by simp [inRangeB, fromOk, toOk, h0, hT]⟩
    constructor
    · simp only [staleScan]
      exact foldl_delete_mem _ _ (List.mem_map_of_mem Prod.fst hmem)
    · simp only [staleScan]
      exact List.mem_map_of_mem (fun p => (p.1, withdrawValue cfg)) hmem
  · intro k v hget hT
    have hnot : k ∉ (tableQuery tbl (some 0) (some (T - 1))).map Prod.fst := by
      intro hk
      rcases List.mem_map.mp hk with ⟨p, hp, hpk⟩
      obtain ⟨pk, pv⟩ := p
      rcases mem_tableQuery.mp hp with ⟨hmem, hrange⟩
      simp only at hpk
      have hgp : tableGet tbl pk = some pv := mem_tableGet hwf hmem
      rw [hpk, hget] at hgp
      cases hgp
      simp only [inRangeB, fromOk, toOk, Bool.and_eq_true,
        decide_eq_true_eq] at hrange
      omega
    constructor
    · simp only [staleScan]
      rw [foldl_delete_not_mem _ _ hnot]
      exact hget
    · intro w hw
      simp only [staleScan] at hw
      rcases List.mem_map.mp hw with ⟨p, hp, hpe⟩
      apply hnot
      have : p.1 = k := congrArg Prod.fst hpe
      rw [← this]
      exact List.mem_map_of_mem Prod.fst hp

/-- Witness for C1 amended at concrete inputs: on the two-entry stale
store with `T = 10`, key `a` is deleted and withdrawn; for a cycle
starting at `T = 6` the entry updated at 5 satisfies
`_updated ≥ T − 1` and is kept and not withdrawn. -/
theorem c1_stale_scan_amended_witness :
    (tableGet (staleScan cexCfg 10 cexStaleTable).1 ['a'] = none ∧
      (['a'], withdrawValue cexCfg) ∈ (staleScan cexCfg 10 cexStaleTable).2) ∧
    (tableGet (staleScan cexCfg 6 cexSeenTable).1 ['a'] =
        some [(kUpdated, Value.vInt 5), (kFirstSeen, Value.vInt 2)] ∧
      ∀ w, (['a'], w) ∉ (staleScan cexCfg 6 cexSeenTable).2) := by
  constructor
  · exact (c1_stale_scan_amended cexCfg 10 cexStaleTable (by decide)).1
      ['a'] [(kUpdated, Value.vInt 5)] (by decide) (by decide) (by decide)
  · exact (c1_stale_scan_amended cexCfg 6 cexSeenTable (by decide)).2.1
      ['a'] [(kUpdated, Value.vInt 5), (kFirstSeen, Value.vInt 2)]
      (by decide) (by decide)

/-- C2: for every `(indicator, attrs)` pair produced during a cycle,
the built record is upserted into the store in every case; if no prior
record exists, an update is emitted; if a prior record exists and
`force_updates` is on, an update is always emitted; if a prior record
exists and `force_updates` is off, an update is emitted iff the
pluggable equality predicate reports not-equal — in particular, with
the default predicate `_values_compare` (which always reports equal),
never. -/
theorem c2_emission_decision (cfg : Config) (cmp : Attrs → Attrs → Bool)
    (clock : Nat → Int) (tbl : Table) (indicator : PyStr) (attrs0 : Attrs)
    (i : Nat) :
    (∃ na,
      tableGet (processIndicator cfg cmp clock tbl indicator attrs0 i).1
          indicator = some na ∧
      (tableGet tbl indicator = none →
        (processIndicator cfg cmp clock tbl indicator attrs0 i).2.1 =
          some (indicator, na)) ∧
      (∀ old, tableGet tbl indicator = some old →
        cfg.force_updates = true →
        (processIndicator cfg cmp clock tbl indicator attrs0 i).2.1 =
          some (indicator, na)) ∧
      (∀ old, tableGet tbl indicator = some old →
        cfg.force_updates = false →
        ((processIndicator cfg cmp clock tbl indicator attrs0 i).2.1 =
            some (indicator, na) ↔ cmp old na = false))) ∧
    (∀ old, tableGet tbl indicator = some old →
      cfg.force_updates = false →
      (processIndicator cfg values_compare clock tbl indicator attrs0 i).2.1 =
        none) := by
  cases hev : tableGet tbl indicator with
  | none =>
    refine ⟨⟨newAttrsNew cfg clock attrs0 i, ?_, ?_, ?_, ?_⟩, ?_⟩
    · rw [processIndicator_none cfg cmp clock tbl indicator attrs0 i hev]
      exact tableGet_tablePut_self tbl indicator _
    · intro _
      rw [processIndicator_none cfg cmp clock tbl indicator attrs0 i hev]
    · intro old hold
      exact Option.noConfusion hold
    · intro old hold
      exact Option.noConfusion hold
    · intro old hold
      exact Option.noConfusion hold
  | some old =>
    refine ⟨⟨newAttrsOld cfg clock attrs0 old i, ?_, ?_, ?_, ?_⟩, ?_⟩
    · rw [processIndicator_some cfg cmp clock tbl indicator attrs0 i old hev]
      exact tableGet_tablePut_self tbl indicator _
    · intro hnone
      exact Option.noConfusion hnone
    · intro old' hold' hf
      cases hold'
      rw [processIndicator_some cfg cmp clock tbl indicator attrs0 i old hev]
      simp [hf]
    · intro old' hold' hf
      cases hold'
      rw [processIndicator_some cfg cmp clock tbl indicator attrs0 i old hev]
      cases hc : cmp old (newAttrsOld cfg clock attrs0 old i) <;>
        simp [hf, hc]
    · intro old' hold' hf
      cases hold'
      rw [processIndicator_some cfg values_compare clock tbl indicator
        attrs0 i old hev]
      simp [hf, values_compare]

/-- Witness for C2 at concrete inputs: on a store holding key `a`, the
default predicate with `force_updates` off suppresses the update, while
a fresh key `c` is emitted; in both cases the record is in the store
afterwards. -/
theorem c2_emission_decision_witness :
    (processIndicator cexCfg values_compare (fun _ => 20) cexStaleTable
      ['a'] [] 1).2.1 = none ∧
    ∃ na,
      tableGet (processIndicator cexCfg values_compare (fun _ => 20)
          cexStaleTable ['c'] [] 1).1 ['c'] = some na ∧
      (processIndicator cexCfg values_compare (fun _ => 20) cexStaleTable
          ['c'] [] 1).2.1 = some (['c'], na) := by
  constructor
  · exact (c2_emission_decision cexCfg values_compare (fun _ => 20)
      cexStaleTable ['a'] [] 1).2 [(kUpdated, Value.vInt 5)] (by decide) rfl
  · obtain ⟨na, h1, h2, _, _⟩ := (c2_emission_decision cexCfg
      values_compare (fun _ => 20) cexStaleTable ['c'] [] 1).1
    exact ⟨na, h1, h2 (by decide)⟩

/-- Witness for C4 at concrete inputs: a non-string indicator fails
with `ValueError` leaving the state unchanged and sending nothing, and
so does an unrecognized index name. -/
theorem c4_rpc_validation_witness :
    get startedState (PyVal.pInt 123) =
      (.error .valueError, startedState, []) ∧
    get_range startedState (some ['x']) none none =
      (.error .valueError, startedState, []) :=
  ⟨(c4_rpc_validation startedState (PyVal.pInt 123) none none none).2.1
      (fun s h => PyVal.noConfusion h),
   (c4_rpc_validation startedState (PyVal.pInt 123) (some ['x']) none
      none).2.2.2 ['x'] rfl (by decide)⟩

end HttpFT
